import Mathlib

/-!
Shallow embedding of `src/PgTransaction.ts` (knight-pg-transaction).

The manager state mirrors the fields of the TypeScript class
`PgTransaction`.  External effects (acquiring a pool client, issuing the
real `BEGIN`/`COMMIT`/`ROLLBACK` statements) may fail; an `Oracle`
(a stream of success bits, empty stream meaning everything succeeds)
decides each such outcome.  Registered hooks carry a fixed identifier and
a fixed success bit.  Every operation returns a `Step`: the result
(success or a thrown error), the post state, the remaining oracle and the
list of externally observable events the call produced, in order.
-/

namespace KnightPg

/-- Real SQL statements the manager issues on the held client. -/
inductive Stmt where
  | begin
  | commit
  | rollback
deriving DecidableEq

/-- Externally observable events: acquiring a client from the pool,
issuing a real statement on the client, releasing the client back to the
pool, and invoking a registered hook. -/
inductive Event where
  | acquire
  | stmt (s : Stmt)
  | releaseClient
  | hookCalled (id : Nat)
deriving DecidableEq

/-- A registered hook: an identifier and whether invoking it succeeds. -/
structure Hook where
  id : Nat
  ok : Bool
deriving DecidableEq

/-- Errors thrown by the manager or by external calls.  The first four
mirror the thrown `Error` messages of the source:
`transactionActive` is 'Transaction is running. Cannot release.',
`noActiveCommit` is 'Transaction not running. Cannot commit.',
`noActiveRollback` is 'Transaction not running. Cannot rollback.',
`connectionLost` is 'Postgres pool client is not there anymore'.
`wrapped e` models the `throw new Error(e)` in `runInTransaction`. -/
inductive Err where
  | transactionActive
  | noActiveCommit
  | noActiveRollback
  | connectionLost
  | connectFailed
  | queryFailed (s : Stmt)
  | hookFailed (id : Nat)
  | bodyError
  | wrapped (e : Err)
deriving DecidableEq

/-- The mutable fields of the TypeScript class `PgTransaction`.
`client` records whether a pool client is currently held
(`this.client !== undefined`); `beginCounter` only ever moves by guarded
increments and decrements from `0`, so `Nat` is exact. -/
structure PgTransaction where
  client : Bool
  beginCounter : Nat
  throwingWrongCommitOrRollbackError : Bool
  afterBeginFunctions : List Hook
  afterCommitFunctions : List Hook
deriving DecidableEq

/-- The state of a freshly constructed manager. -/
def PgTransaction.init : PgTransaction :=
  { client := false
    beginCounter := 0
    throwingWrongCommitOrRollbackError := false
    afterBeginFunctions := []
    afterCommitFunctions := [] }

/-- Outcomes of the external calls (pool connect, real statements), in
the order the calls happen.  The empty stream means all calls succeed. -/
abbrev Oracle := List Bool

/-- Consume the next outcome; an exhausted oracle yields success. -/
def Oracle.next : Oracle → Bool × Oracle
  | [] => (true, [])
  | b :: r => (b, r)

instance : DecidableEq (Except Err Unit) := fun x y =>
  match x, y with
  | .ok (), .ok () => isTrue rfl
  | .error a, .error b =>
    if h : a = b then isTrue (by rw [h])
    else isFalse (fun hc => h (Except.error.inj hc))
  | .ok _, .error _ => isFalse (fun hc => Except.noConfusion hc)
  | .error _, .ok _ => isFalse (fun hc => Except.noConfusion hc)

/-- The observable outcome of one manager call: thrown error or success,
the post state, the remaining oracle, the events produced in order. -/
structure Step where
  res : Except Err Unit
  st : PgTransaction
  orc : Oracle
  tr : List Event
deriving DecidableEq

namespace PgTransaction

/-- `connect()`: if no client is held, acquire one from the pool
(which may fail); otherwise return the held client unchanged. -/
def connect (s : PgTransaction) (o : Oracle) : Step :=
  if s.client then ⟨.ok (), s, o, []⟩
  else
    let p := o.next
    if p.1 then ⟨.ok (), { s with client := true }, p.2, [.acquire]⟩
    else ⟨.error .connectFailed, s, p.2, []⟩

/-- `release()`: throws `transactionActive` while `beginCounter > 0`;
otherwise, if a client is held, releases it and clears the misuse flag;
otherwise does nothing.  (The source's synchronous method; it consumes
no oracle outcome since `client.release()` returns void.) -/
def release (s : PgTransaction) (o : Oracle) : Step :=
  if s.beginCounter > 0 then ⟨.error .transactionActive, s, o, []⟩
  else if s.client && s.beginCounter == 0 then
    ⟨.ok (), { s with
               client := false
               beginCounter := 0
               throwingWrongCommitOrRollbackError := false }, o, [.releaseClient]⟩
  else ⟨.ok (), s, o, []⟩

/-- Invoke a list of hooks in order, each awaited before the next; a
failing hook stops the loop and its error propagates.  Returns the
result and the `hookCalled` events in order. -/
def runHooks : List Hook → Except Err Unit × List Event
  | [] => (.ok (), [])
  | h :: hs =>
    if h.ok then
      let r := runHooks hs
      (r.1, .hookCalled h.id :: r.2)
    else (.error (.hookFailed h.id), [.hookCalled h.id])

/-- `begin()`: connect if no client is held; if `beginCounter == 0`,
issue the real `BEGIN` (which may fail), increment the counter, then run
the after-begin hooks in order; otherwise just increment the counter. -/
def begin (s : PgTransaction) (o : Oracle) : Step :=
  let c : Step := if !s.client then connect s o else ⟨.ok (), s, o, []⟩
  match c with
  | ⟨.error e, s1, o1, t1⟩ => ⟨.error e, s1, o1, t1⟩
  | ⟨.ok _, s1, o1, t1⟩ =>
    if s1.beginCounter == 0 then
      let p := o1.next
      if p.1 then
        let s2 := { s1 with beginCounter := s1.beginCounter + 1 }
        let r := runHooks s2.afterBeginFunctions
        ⟨r.1, s2, p.2, t1 ++ .stmt .begin :: r.2⟩
      else ⟨.error (.queryFailed .begin), s1, p.2, t1 ++ [.stmt .begin]⟩
    else ⟨.ok (), { s1 with beginCounter := s1.beginCounter + 1 }, o1, t1⟩

/-- `commit()`: at counter 0 sets the misuse flag and throws
`noActiveCommit`; with no client throws `connectionLost`; at counter 1
issues the real `COMMIT` (which may fail), releases the client, resets
counter and flag, runs the after-commit hooks and, only if they all
succeeded, clears the after-commit list; at counter above 1 just
decrements. -/
def commit (s : PgTransaction) (o : Oracle) : Step :=
  if s.beginCounter ≤ 0 then
    ⟨.error .noActiveCommit,
     { s with throwingWrongCommitOrRollbackError := true }, o, []⟩
  else if !s.client then ⟨.error .connectionLost, s, o, []⟩
  else if s.beginCounter == 1 then
    let p := o.next
    if p.1 then
      let s1 := { s with
                  client := false
                  beginCounter := 0
                  throwingWrongCommitOrRollbackError := false }
      let r := runHooks s1.afterCommitFunctions
      match r.1 with
      | .ok _ => ⟨.ok (), { s1 with afterCommitFunctions := [] }, p.2,
                  .stmt .commit :: .releaseClient :: r.2⟩
      | .error e => ⟨.error e, s1, p.2, .stmt .commit :: .releaseClient :: r.2⟩
    else ⟨.error (.queryFailed .commit), s, p.2, [.stmt .commit]⟩
  else ⟨.ok (), { s with beginCounter := s.beginCounter - 1 }, o, []⟩

/-- `rollback()`: at counter 0 sets the misuse flag and throws
`noActiveRollback`; with no client throws `connectionLost`; otherwise
issues the real `ROLLBACK` (which may fail), releases the client and
resets counter and flag.  No hooks fire. -/
def rollback (s : PgTransaction) (o : Oracle) : Step :=
  if s.beginCounter ≤ 0 then
    ⟨.error .noActiveRollback,
     { s with throwingWrongCommitOrRollbackError := true }, o, []⟩
  else if !s.client then ⟨.error .connectionLost, s, o, []⟩
  else if s.beginCounter > 0 then
    let p := o.next
    if p.1 then
      ⟨.ok (), { s with
                 client := false
                 beginCounter := 0
                 throwingWrongCommitOrRollbackError := false }, p.2,
       [.stmt .rollback, .releaseClient]⟩
    else ⟨.error (.queryFailed .rollback), s, p.2, [.stmt .rollback]⟩
  else ⟨.ok (), s, o, []⟩

end PgTransaction

/-- One public manager operation, as a caller (or the body handed to
`runInTransaction`) can invoke it.  `afterBegin`/`afterCommit` register a
hook. -/
inductive Op where
  | connect
  | release
  | begin
  | commit
  | rollback
  | afterBegin (h : Hook)
  | afterCommit (h : Hook)
deriving DecidableEq

/-- Run one operation on the manager. -/
def runOp : Op → PgTransaction → Oracle → Step
  | .connect, s, o => s.connect o
  | .release, s, o => s.release o
  | .begin, s, o => s.begin o
  | .commit, s, o => s.commit o
  | .rollback, s, o => s.rollback o
  | .afterBegin h, s, o =>
    ⟨.ok (), { s with afterBeginFunctions := s.afterBeginFunctions ++ [h] }, o, []⟩
  | .afterCommit h, s, o =>
    ⟨.ok (), { s with afterCommitFunctions := s.afterCommitFunctions ++ [h] }, o, []⟩

/-- One statement of a body handed to `runInTransaction`: a manager
operation, and whether the body catches (swallows) an error this
operation throws, as a `try/catch` in the body's code would. -/
structure BodyStep where
  op : Op
  catchErr : Bool
deriving DecidableEq

/-- A body handed to `runInTransaction`: a sequence of manager
operations, then either a normal return or a throw of its own. -/
structure Body where
  steps : List BodyStep
  throwAtEnd : Bool
deriving DecidableEq

/-- Run the statements of a body in order.  An uncaught error aborts the
remaining statements and propagates. -/
def runSteps : List BodyStep → PgTransaction → Oracle → Step
  | [], s, o => ⟨.ok (), s, o, []⟩
  | b :: bs, s, o =>
    match runOp b.op s o with
    | ⟨.ok _, s1, o1, t1⟩ =>
      let r := runSteps bs s1 o1
      ⟨r.res, r.st, r.orc, t1 ++ r.tr⟩
    | ⟨.error e, s1, o1, t1⟩ =>
      if b.catchErr then
        let r := runSteps bs s1 o1
        ⟨r.res, r.st, r.orc, t1 ++ r.tr⟩
      else ⟨.error e, s1, o1, t1⟩

/-- Run a body: its statements, then its own return or throw. -/
def runBody (body : Body) (s : PgTransaction) (o : Oracle) : Step :=
  match runSteps body.steps s o with
  | ⟨.ok _, s1, o1, t1⟩ =>
    if body.throwAtEnd then ⟨.error .bodyError, s1, o1, t1⟩
    else ⟨.ok (), s1, o1, t1⟩
  | r => r

/-- A successful `commit` from a positive counter strictly lowers the
counter (it either really commits, resetting to 0, or decrements). -/
theorem commit_ok_lt {s : PgTransaction} {o : Oracle} {u : Unit}
    {s' : PgTransaction} {o' : Oracle} {t' : List Event}
    (hpos : 0 < s.beginCounter)
    (h : s.commit o = ⟨.ok u, s', o', t'⟩) :
    s'.beginCounter < s.beginCounter := by
  unfold PgTransaction.commit at h
  split at h
  · omega
  · split at h
    · exact absurd (congrArg Step.res h) (by simp)
    · split at h
      · simp only [] at h
        split at h
        · split at h
          · cases h
            simpa using hpos
          · exact absurd (congrArg Step.res h) (by simp)
        · exact absurd (congrArg Step.res h) (by simp)
      · cases h
        simp only []
        omega

/-- Fuel-indexed unfolding of the auto-balancing loop at the end of
`runInTransaction`:
`while (this.beginCounter > beginCounterBefore) await this.commit()`.
Each successful `commit` from a positive counter strictly lowers the
counter (`commit_ok_lt`), so a fuel of `s.beginCounter` always suffices;
`commitLoopFuel_congr` below shows the choice of sufficient fuel does
not matter. -/
def commitLoopFuel : Nat → Nat → PgTransaction → Oracle → Step
  | 0, _, s, o => ⟨.ok (), s, o, []⟩
  | fuel + 1, before, s, o =>
    if s.beginCounter > before then
      match s.commit o with
      | ⟨.ok _, s1, o1, t1⟩ =>
        let r := commitLoopFuel fuel before s1 o1
        ⟨r.res, r.st, r.orc, t1 ++ r.tr⟩
      | ⟨.error e, s1, o1, t1⟩ => ⟨.error e, s1, o1, t1⟩
    else ⟨.ok (), s, o, []⟩

/-- With at least `s.beginCounter` fuel, `commitLoopFuel` no longer
depends on the exact amount of fuel: the loop terminates on its own. -/
theorem commitLoopFuel_congr {f1 f2 before : Nat} {s : PgTransaction} {o : Oracle}
    (h1 : s.beginCounter ≤ f1) (h2 : s.beginCounter ≤ f2) :
    commitLoopFuel f1 before s o = commitLoopFuel f2 before s o := by
  induction f1 generalizing f2 s o with
  | zero =>
    have hz : s.beginCounter = 0 := Nat.le_zero.mp h1
    cases f2 with
    | zero => rfl
    | succ k =>
      simp only [commitLoopFuel]
      rw [if_neg (by omega)]
  | succ f ih =>
    cases f2 with
    | zero =>
      have hz : s.beginCounter = 0 := Nat.le_zero.mp h2
      simp only [commitLoopFuel]
      rw [if_neg (by omega)]
    | succ k =>
      simp only [commitLoopFuel]
      by_cases hgt : s.beginCounter > before
      · rw [if_pos hgt, if_pos hgt]
        rcases hs : s.commit o with ⟨res, s1, o1, t1⟩
        cases res with
        | ok u =>
          have hlt : s1.beginCounter < s.beginCounter :=
            commit_ok_lt (Nat.lt_of_le_of_lt (Nat.zero_le before) hgt) hs
          simp only []
          rw [@ih k s1 o1 (by omega) (by omega)]
        | error e => simp only []
      · rw [if_neg hgt, if_neg hgt]

/-- The auto-balancing loop of `runInTransaction`, entered with the
recorded counter `before`. -/
def commitLoop (before : Nat) (s : PgTransaction) (o : Oracle) : Step :=
  commitLoopFuel s.beginCounter before s o

/-- The `catch` block of `runInTransaction`: with a transaction still
open and the misuse flag clear, try `rollback()`; if the rollback throws,
call `release()` and, if that returned, throw a wrapper around the
rollback error; after a successful rollback, or with the misuse flag
set, call `release()`; an error thrown by `release()` replaces
everything; otherwise rethrow the original error. -/
def runInTxCatch (e : Err) (s : PgTransaction) (o : Oracle) (t : List Event) : Step :=
  if s.beginCounter > 0 then
    if !s.throwingWrongCommitOrRollbackError then
      match s.rollback o with
      | ⟨.ok _, s1, o1, t1⟩ =>
        match s1.release o1 with
        | ⟨.ok _, s2, o2, t2⟩ => ⟨.error e, s2, o2, t ++ t1 ++ t2⟩
        | ⟨.error e3, s2, o2, t2⟩ => ⟨.error e3, s2, o2, t ++ t1 ++ t2⟩
      | ⟨.error e2, s1, o1, t1⟩ =>
        match s1.release o1 with
        | ⟨.ok _, s2, o2, t2⟩ => ⟨.error (.wrapped e2), s2, o2, t ++ t1 ++ t2⟩
        | ⟨.error e3, s2, o2, t2⟩ => ⟨.error e3, s2, o2, t ++ t1 ++ t2⟩
    else
      match s.release o with
      | ⟨.ok _, s2, o2, t2⟩ => ⟨.error e, s2, o2, t ++ t2⟩
      | ⟨.error e3, s2, o2, t2⟩ => ⟨.error e3, s2, o2, t ++ t2⟩
  else ⟨.error e, s, o, t⟩

/-- `runInTransaction(code)`: record the counter, `begin()`, run the
body, then commit until the counter is back at the recorded value; any
error from these steps goes to the catch block `runInTxCatch`. -/
def runInTransaction (body : Body) (s : PgTransaction) (o : Oracle) : Step :=
  let before := s.beginCounter
  match s.begin o with
  | ⟨.error e, s1, o1, t1⟩ => runInTxCatch e s1 o1 t1
  | ⟨.ok _, s1, o1, t1⟩ =>
    match runBody body s1 o1 with
    | ⟨.error e, s2, o2, t2⟩ => runInTxCatch e s2 o2 (t1 ++ t2)
    | ⟨.ok _, s2, o2, t2⟩ =>
      match commitLoop before s2 o2 with
      | ⟨.error e, s3, o3, t3⟩ => runInTxCatch e s3 o3 (t1 ++ t2 ++ t3)
      | ⟨.ok _, s3, o3, t3⟩ => ⟨.ok (), s3, o3, t1 ++ t2 ++ t3⟩

/-- States reachable from a fresh manager by any sequence of public
operations (with any oracle outcomes), including whole
`runInTransaction` calls with any body. -/
inductive Reachable : PgTransaction → Prop where
  | init : Reachable PgTransaction.init
  | step {s : PgTransaction} (op : Op) (o : Oracle) :
      Reachable s → Reachable (runOp op s o).st
  | runInTx {s : PgTransaction} (body : Body) (o : Oracle) :
      Reachable s → Reachable (runInTransaction body s o).st

/-- Running a list of hooks that all succeed fires each one, in order. -/
theorem runHooks_all_ok {hs : List Hook} (h : ∀ x ∈ hs, x.ok = true) :
    PgTransaction.runHooks hs =
      (.ok (), hs.map fun x => Event.hookCalled x.id) := by
  induction hs with
  | nil => rfl
  | cons a rest ih =>
    have ha : a.ok = true := h a (by simp)
    simp [PgTransaction.runHooks, ha, ih (fun x hx => h x (by simp [hx]))]

/-- Running hooks with a first failure fires the successful prefix and
the failing hook, skips the rest, and propagates the failure. -/
theorem runHooks_first_fail {good : List Hook} {bad : Hook} {rest : List Hook}
    (hg : ∀ x ∈ good, x.ok = true) (hb : bad.ok = false) :
    PgTransaction.runHooks (good ++ bad :: rest) =
      (.error (.hookFailed bad.id),
       (good.map fun x => Event.hookCalled x.id) ++ [Event.hookCalled bad.id]) := by
  induction good with
  | nil => simp [PgTransaction.runHooks, hb]
  | cons a g ih =>
    have ha : a.ok = true := hg a (by simp)
    simp [PgTransaction.runHooks, ha, ih (fun x hx => hg x (by simp [hx]))]

/-- Claim C6: with a connection held at any depth `n ≥ 1` (and the real
statement succeeding), `rollback()` issues the real `ROLLBACK` exactly
once, releases the connection, resets the depth to 0 unconditionally,
clears the misuse flag, and fires no hooks: its observable trace is
exactly the `ROLLBACK` statement followed by the client release. -/
theorem rollback_collapses_fully (s : PgTransaction) (o : Oracle)
    (h1 : 1 ≤ s.beginCounter) (hc : s.client = true) (hq : (o.next).1 = true) :
    s.rollback o =
      ⟨.ok (), { s with
                 client := false
                 beginCounter := 0
                 throwingWrongCommitOrRollbackError := false }, (o.next).2,
       [.stmt .rollback, .releaseClient]⟩ := by
  have h0 : ¬ s.beginCounter ≤ 0 := by omega
  have h2 : s.beginCounter > 0 := by omega
  simp [PgTransaction.rollback, h0, h2, hc, hq]

/-- Claim C7: `commit()` or `rollback()` at depth 0 fails with the
"Transaction not running" error and sets the misuse flag, leaving depth
and the connection unchanged; a second such call at depth 0 yields the
identical error and the identical state. -/
theorem commit_rollback_at_depth_zero (s : PgTransaction) (o o2 : Oracle)
    (h0 : s.beginCounter = 0) :
    s.commit o = ⟨.error .noActiveCommit,
      { s with throwingWrongCommitOrRollbackError := true }, o, []⟩ ∧
    s.rollback o = ⟨.error .noActiveRollback,
      { s with throwingWrongCommitOrRollbackError := true }, o, []⟩ ∧
    (s.commit o).st.commit o2 =
      ⟨.error .noActiveCommit, (s.commit o).st, o2, []⟩ ∧
    (s.rollback o).st.rollback o2 =
      ⟨.error .noActiveRollback, (s.rollback o).st, o2, []⟩ := by
  have hle : s.beginCounter ≤ 0 := by omega
  have hcom : s.commit o = ⟨.error .noActiveCommit,
      { s with throwingWrongCommitOrRollbackError := true }, o, []⟩ := by
    unfold PgTransaction.commit
    rw [if_pos hle]
  have hrb : s.rollback o = ⟨.error .noActiveRollback,
      { s with throwingWrongCommitOrRollbackError := true }, o, []⟩ := by
    unfold PgTransaction.rollback
    rw [if_pos hle]
  refine ⟨hcom, hrb, ?_, ?_⟩
  · rw [hcom]
    unfold PgTransaction.commit
    rw [if_pos hle]
  · rw [hrb]
    unfold PgTransaction.rollback
    rw [if_pos hle]

/-- Claim C8: `release()` fails with the TransactionActive error
whenever depth is positive, leaving all state unchanged; at depth 0 with
a held connection it returns the connection to the pool, clears it and
resets the misuse flag; at depth 0 with no connection it is a no-op. -/
theorem release_spec (s : PgTransaction) (o : Oracle) :
    (0 < s.beginCounter → s.release o = ⟨.error .transactionActive, s, o, []⟩) ∧
    (s.beginCounter = 0 → s.client = true →
       s.release o = ⟨.ok (), { s with
                                client := false
                                beginCounter := 0
                                throwingWrongCommitOrRollbackError := false },
                      o, [.releaseClient]⟩) ∧
    (s.beginCounter = 0 → s.client = false → s.release o = ⟨.ok (), s, o, []⟩) := by
  refine ⟨fun hp => ?_, fun h0 hc => ?_, fun h0 hc => ?_⟩
  · simp [PgTransaction.release, hp]
  · simp [PgTransaction.release, h0, hc]
  · simp [PgTransaction.release, h0, hc]

/-- Claim C9: `begin()` at depth 0 (with a held connection and the real
statement succeeding) issues the real `BEGIN`, sets the depth to 1, then
invokes every registered after-begin hook in registration order; a hook
failure propagates out of `begin()` with the transaction open at depth 1
and the remaining hooks skipped; `begin()` at positive depth only
increments the depth, issues no statement and fires no hooks. -/
theorem begin_spec (s : PgTransaction) (o : Oracle) :
    (s.beginCounter = 0 → s.client = true → (o.next).1 = true →
       (∀ x ∈ s.afterBeginFunctions, x.ok = true) →
       s.begin o = ⟨.ok (), { s with beginCounter := 1 }, (o.next).2,
         .stmt .begin :: (s.afterBeginFunctions.map fun x => Event.hookCalled x.id)⟩) ∧
    (∀ good bad rest, s.beginCounter = 0 → s.client = true → (o.next).1 = true →
       s.afterBeginFunctions = good ++ bad :: rest →
       (∀ x ∈ good, x.ok = true) → bad.ok = false →
       s.begin o = ⟨.error (.hookFailed bad.id), { s with beginCounter := 1 },
         (o.next).2,
         .stmt .begin :: ((good.map fun x => Event.hookCalled x.id) ++
           [Event.hookCalled bad.id])⟩) ∧
    (0 < s.beginCounter → s.client = true →
       s.begin o = ⟨.ok (), { s with beginCounter := s.beginCounter + 1 }, o, []⟩) := by
  refine ⟨fun h0 hc hq hok => ?_, fun good bad rest h0 hc hq hlist hg hb => ?_,
    fun hp hc => ?_⟩
  · simp [PgTransaction.begin, hc, h0, hq, runHooks_all_ok hok]
  · simp [PgTransaction.begin, hc, h0, hq, hlist, runHooks_first_fail hg hb]
  · have hne : ¬ s.beginCounter = 0 := by omega
    simp [PgTransaction.begin, hc, hne]

/-- Claim C10: when an after-commit hook fails during an outermost
`commit()` (depth 1), the error propagates only after the real `COMMIT`
was issued and the connection released and cleared; at that moment the
depth is 0 and the misuse flag is false, and the after-commit hook list
is left exactly as it was (not cleared), so every registered hook stays
registered for the next outermost commit. -/
theorem commit_hook_failure_keeps_hooks (s : PgTransaction) (o : Oracle)
    (good : List Hook) (bad : Hook) (rest : List Hook)
    (h1 : s.beginCounter = 1) (hc : s.client = true) (hq : (o.next).1 = true)
    (hlist : s.afterCommitFunctions = good ++ bad :: rest)
    (hg : ∀ x ∈ good, x.ok = true) (hb : bad.ok = false) :
    s.commit o = ⟨.error (.hookFailed bad.id),
      { s with
        client := false
        beginCounter := 0
        throwingWrongCommitOrRollbackError := false }, (o.next).2,
      .stmt .commit :: .releaseClient ::
        ((good.map fun x => Event.hookCalled x.id) ++ [Event.hookCalled bad.id])⟩ := by
  have h0 : ¬ s.beginCounter ≤ 0 := by omega
  simp [PgTransaction.commit, h0, hc, h1, hq, hlist, runHooks_first_fail hg hb]

/-- Claim C2 counterexample: after a failed `commit()` at depth 0 the
misuse flag is true, and a subsequent successful `begin()` returns
success while leaving the flag still true — `begin()` never touches
`throwingWrongCommitOrRollbackError`, contradicting the claim that every
successful `begin()` resets it. -/
theorem begin_does_not_reset_misuse_flag :
    (PgTransaction.init.commit []).st.throwingWrongCommitOrRollbackError = true ∧
    ((PgTransaction.init.commit []).st.begin []).res = .ok () ∧
    ((PgTransaction.init.commit []).st.begin
        []).st.throwingWrongCommitOrRollbackError = true := by
  decide

/-- Claim C2 (amended): the misuse flag is reset to false by every
successful outermost `commit()` (depth 1, even if an after-commit hook
then fails), by every successful `rollback()`, and by every `release()`
that actually releases a held connection; a successful `begin()` leaves
the flag unchanged (in fact `begin()` never modifies it), as do an inner
`commit()` (depth above 1) and a no-op `release()`. -/
theorem connect_preserves_flag (s : PgTransaction) (o : Oracle) :
    (s.connect o).st.throwingWrongCommitOrRollbackError
      = s.throwingWrongCommitOrRollbackError := by
  unfold PgTransaction.connect
  split
  · rfl
  · simp only []
    split <;> rfl

theorem begin_preserves_flag (s : PgTransaction) (o : Oracle) :
    (s.begin o).st.throwingWrongCommitOrRollbackError
      = s.throwingWrongCommitOrRollbackError := by
  unfold PgTransaction.begin
  simp only []
  rcases hsc : (if !s.client then s.connect o else (⟨.ok (), s, o, []⟩ : Step))
    with ⟨res, s1, o1, t1⟩
  have hflag : s1.throwingWrongCommitOrRollbackError
      = s.throwingWrongCommitOrRollbackError := by
    have hpr := congrArg (fun t => t.st.throwingWrongCommitOrRollbackError) hsc
    simp only [] at hpr
    rw [← hpr]
    split
    · exact connect_preserves_flag s o
    · rfl
  cases res with
  | error e => exact hflag
  | ok u =>
    simp only []
    split
    · split
      · exact hflag
      · exact hflag
    · exact hflag

theorem misuse_flag_reset_rules (s : PgTransaction) (o : Oracle) :
    (s.beginCounter = 1 → s.client = true → (o.next).1 = true →
       (s.commit o).st.throwingWrongCommitOrRollbackError = false) ∧
    (1 ≤ s.beginCounter → s.client = true → (o.next).1 = true →
       (s.rollback o).st.throwingWrongCommitOrRollbackError = false) ∧
    (s.beginCounter = 0 → s.client = true →
       (s.release o).st.throwingWrongCommitOrRollbackError = false) ∧
    ((s.begin o).st.throwingWrongCommitOrRollbackError
       = s.throwingWrongCommitOrRollbackError) ∧
    (2 ≤ s.beginCounter →
       (s.commit o).st.throwingWrongCommitOrRollbackError
         = s.throwingWrongCommitOrRollbackError) ∧
    (s.beginCounter = 0 → s.client = false →
       (s.release o).st.throwingWrongCommitOrRollbackError
         = s.throwingWrongCommitOrRollbackError) := by
  refine ⟨fun h1 hc hq => ?_, fun h1 hc hq => ?_, fun h0 hc => ?_,
    begin_preserves_flag s o, fun h2 => ?_, fun h0 hc => ?_⟩
  · have h0 : ¬ s.beginCounter ≤ 0 := by omega
    unfold PgTransaction.commit
    rw [if_neg h0, if_neg (by simp [hc]), if_pos (by simp [h1])]
    simp only []
    rw [if_pos hq]
    split <;> rfl
  · exact congrArg (fun t => t.st.throwingWrongCommitOrRollbackError)
      (rollback_collapses_fully s o h1 hc hq)
  · exact congrArg (fun t => t.st.throwingWrongCommitOrRollbackError)
      ((release_spec s o).2.1 h0 hc)
  · have h0 : ¬ s.beginCounter ≤ 0 := by omega
    have hne : ¬ (s.beginCounter == 1) = true := by simp; omega
    unfold PgTransaction.commit
    rw [if_neg h0]
    by_cases hcl : s.client
    · rw [if_neg (by simp [hcl]), if_neg hne]
    · rw [if_pos (by simp [hcl])]
  · exact congrArg (fun t => t.st.throwingWrongCommitOrRollbackError)
      ((release_spec s o).2.2 h0 hc)

/-- Witness for claim C6 at the concrete state with a held connection
and depth 2. -/
theorem rollback_collapses_fully_witness :
    PgTransaction.rollback ⟨true, 2, false, [], []⟩ [] =
      ⟨.ok (), ⟨false, 0, false, [], []⟩, [], [.stmt .rollback, .releaseClient]⟩ :=
  rollback_collapses_fully ⟨true, 2, false, [], []⟩ [] (by decide) rfl rfl

/-- Witness for claim C7 at the fresh manager state. -/
theorem commit_rollback_at_depth_zero_witness :
    PgTransaction.init.commit [] = ⟨.error .noActiveCommit,
      { PgTransaction.init with throwingWrongCommitOrRollbackError := true },
      [], []⟩ :=
  (commit_rollback_at_depth_zero PgTransaction.init [] [] rfl).1

/-- Witness for claim C8 at the connected, depth-0 state. -/
theorem release_spec_witness :
    PgTransaction.release ⟨true, 0, false, [], []⟩ [] =
      ⟨.ok (), ⟨false, 0, false, [], []⟩, [], [.releaseClient]⟩ :=
  (release_spec ⟨true, 0, false, [], []⟩ []).2.1 rfl rfl

/-- Witness for claim C9 at a connected depth-0 state with one
succeeding after-begin hook. -/
theorem begin_spec_witness :
    PgTransaction.begin ⟨true, 0, false, [⟨5, true⟩], []⟩ [] =
      ⟨.ok (), ⟨true, 1, false, [⟨5, true⟩], []⟩, [],
       [.stmt .begin, .hookCalled 5]⟩ :=
  (begin_spec ⟨true, 0, false, [⟨5, true⟩], []⟩ []).1 rfl rfl rfl (by decide)

/-- Witness for claim C10 at depth 1 with one succeeding and one
failing after-commit hook. -/
theorem commit_hook_failure_keeps_hooks_witness :
    PgTransaction.commit ⟨true, 1, false, [], [⟨1, true⟩, ⟨2, false⟩]⟩ [] =
      ⟨.error (.hookFailed 2), ⟨false, 0, false, [], [⟨1, true⟩, ⟨2, false⟩]⟩, [],
       [.stmt .commit, .releaseClient, .hookCalled 1, .hookCalled 2]⟩ :=
  commit_hook_failure_keeps_hooks ⟨true, 1, false, [], [⟨1, true⟩, ⟨2, false⟩]⟩ []
    [⟨1, true⟩] ⟨2, false⟩ [] rfl rfl rfl rfl (by decide) rfl

/-- Witness for amended claim C2: each reset/preservation rule at a
concrete state whose misuse flag starts out true. -/
theorem misuse_flag_reset_rules_witness :
    (PgTransaction.commit ⟨true, 1, true, [], []⟩
       []).st.throwingWrongCommitOrRollbackError = false ∧
    (PgTransaction.rollback ⟨true, 3, true, [], []⟩
       []).st.throwingWrongCommitOrRollbackError = false ∧
    (PgTransaction.release ⟨true, 0, true, [], []⟩
       []).st.throwingWrongCommitOrRollbackError = false ∧
    (PgTransaction.begin ⟨true, 0, true, [], []⟩
       []).st.throwingWrongCommitOrRollbackError = true ∧
    (PgTransaction.commit ⟨true, 2, true, [], []⟩
       []).st.throwingWrongCommitOrRollbackError = true ∧
    (PgTransaction.release ⟨false, 0, true, [], []⟩
       []).st.throwingWrongCommitOrRollbackError = true :=
  ⟨(misuse_flag_reset_rules ⟨true, 1, true, [], []⟩ []).1 rfl rfl rfl,
   (misuse_flag_reset_rules ⟨true, 3, true, [], []⟩ []).2.1 (by decide) rfl rfl,
   (misuse_flag_reset_rules ⟨true, 0, true, [], []⟩ []).2.2.1 rfl rfl,
   (misuse_flag_reset_rules ⟨true, 0, true, [], []⟩ []).2.2.2.1,
   (misuse_flag_reset_rules ⟨true, 2, true, [], []⟩ []).2.2.2.2.1 (by decide),
   (misuse_flag_reset_rules ⟨false, 0, true, [], []⟩ []).2.2.2.2.2 rfl rfl⟩

/-- The connection invariant of the data model: whenever the depth is
positive, a client is held. -/
def Inv (s : PgTransaction) : Prop := 0 < s.beginCounter → s.client = true

/-- A successful `connect()` always leaves a client held. -/
theorem connect_ok_client {s : PgTransaction} {o : Oracle} {u : Unit}
    {s' : PgTransaction} {o' : Oracle} {t' : List Event}
    (h : s.connect o = ⟨.ok u, s', o', t'⟩) : s'.client = true := by
  unfold PgTransaction.connect at h
  split at h
  · cases h
    assumption
  · simp only [] at h
    split at h
    · cases h
      rfl
    · exact absurd (congrArg Step.res h) (by simp)

theorem inv_connect {s : PgTransaction} {o : Oracle} (h : Inv s) :
    Inv (s.connect o).st := by
  unfold PgTransaction.connect
  split
  · exact h
  · simp only []
    split
    · intro _
      rfl
    · exact h

theorem inv_release {s : PgTransaction} {o : Oracle} (h : Inv s) :
    Inv (s.release o).st := by
  unfold PgTransaction.release
  split
  · exact h
  · split
    · intro hp
      exact absurd hp (by simp)
    · exact h

theorem inv_begin {s : PgTransaction} {o : Oracle} (h : Inv s) :
    Inv (s.begin o).st := by
  unfold PgTransaction.begin
  simp only []
  rcases hsc : (if !s.client then s.connect o else (⟨.ok (), s, o, []⟩ : Step))
    with ⟨res, s1, o1, t1⟩
  have h1 : Inv s1 := by
    have hpr := congrArg Step.st hsc
    simp only [] at hpr
    rw [← hpr]
    split
    · exact inv_connect h
    · exact h
  cases res with
  | error e => exact h1
  | ok u =>
    have hcl : s1.client = true := by
      by_cases hc : s.client
      · rw [if_neg (by simp [hc])] at hsc
        cases hsc
        exact hc
      · rw [if_pos (by simp [hc])] at hsc
        exact connect_ok_client hsc
    simp only []
    split
    · split
      · intro _
        exact hcl
      · exact h1
    · intro _
      exact hcl

theorem inv_commit {s : PgTransaction} {o : Oracle} (h : Inv s) :
    Inv (s.commit o).st := by
  unfold PgTransaction.commit
  split
  · exact h
  · split
    · exact h
    · split
      · simp only []
        split
        · split
          · intro hp
            exact absurd hp (by simp)
          · intro hp
            exact absurd hp (by simp)
        · exact h
      · intro _
        rename_i h0 hcl h1
        exact h (by omega)

theorem inv_rollback {s : PgTransaction} {o : Oracle} (h : Inv s) :
    Inv (s.rollback o).st := by
  unfold PgTransaction.rollback
  split
  · exact h
  · split
    · exact h
    · split
      · simp only []
        split
        · intro hp
          exact absurd hp (by simp)
        · exact h
      · exact h

theorem inv_runOp {op : Op} {s : PgTransaction} {o : Oracle} (h : Inv s) :
    Inv (runOp op s o).st := by
  cases op with
  | connect => exact inv_connect h
  | release => exact inv_release h
  | begin => exact inv_begin h
  | commit => exact inv_commit h
  | rollback => exact inv_rollback h
  | afterBegin hk => exact h
  | afterCommit hk => exact h

theorem inv_runSteps {bs : List BodyStep} {s : PgTransaction} {o : Oracle}
    (h : Inv s) : Inv (runSteps bs s o).st := by
  induction bs generalizing s o with
  | nil => exact h
  | cons b rest ih =>
    unfold runSteps
    rcases hop : runOp b.op s o with ⟨res, s1, o1, t1⟩
    have h1 : Inv s1 := by
      have hpr := congrArg Step.st hop
      simp only [] at hpr
      rw [← hpr]
      exact inv_runOp h
    cases res with
    | ok u => exact ih h1
    | error e =>
      simp only []
      split
      · exact ih h1
      · exact h1

theorem inv_runBody {body : Body} {s : PgTransaction} {o : Oracle}
    (h : Inv s) : Inv (runBody body s o).st := by
  unfold runBody
  rcases hrs : runSteps body.steps s o with ⟨res, s1, o1, t1⟩
  have h1 : Inv s1 := by
    have hpr := congrArg Step.st hrs
    simp only [] at hpr
    rw [← hpr]
    exact inv_runSteps h
  cases res with
  | ok u =>
    simp only []
    split
    · exact h1
    · exact h1
  | error e => exact h1

theorem inv_commitLoopFuel {fuel before : Nat} {s : PgTransaction} {o : Oracle}
    (h : Inv s) : Inv (commitLoopFuel fuel before s o).st := by
  induction fuel generalizing s o with
  | zero => exact h
  | succ f ih =>
    unfold commitLoopFuel
    split
    · rcases hc : s.commit o with ⟨res, s1, o1, t1⟩
      have h1 : Inv s1 := by
        have hpr := congrArg Step.st hc
        simp only [] at hpr
        rw [← hpr]
        exact inv_commit h
      cases res with
      | ok u => exact ih h1
      | error e => exact h1
    · exact h

theorem inv_runInTxCatch {e : Err} {s : PgTransaction} {o : Oracle}
    {t : List Event} (h : Inv s) : Inv (runInTxCatch e s o t).st := by
  unfold runInTxCatch
  split
  · split
    · rcases hr : s.rollback o with ⟨res, s1, o1, t1⟩
      have h1 : Inv s1 := by
        have hpr := congrArg Step.st hr
        simp only [] at hpr
        rw [← hpr]
        exact inv_rollback h
      cases res with
      | ok u =>
        simp only []
        rcases hl : s1.release o1 with ⟨res2, s2, o2, t2⟩
        have h2 : Inv s2 := by
          have hpr := congrArg Step.st hl
          simp only [] at hpr
          rw [← hpr]
          exact inv_release h1
        cases res2 with
        | ok u2 => exact h2
        | error e3 => exact h2
      | error e2 =>
        simp only []
        rcases hl : s1.release o1 with ⟨res2, s2, o2, t2⟩
        have h2 : Inv s2 := by
          have hpr := congrArg Step.st hl
          simp only [] at hpr
          rw [← hpr]
          exact inv_release h1
        cases res2 with
        | ok u2 => exact h2
        | error e3 => exact h2
    · rcases hl : s.release o with ⟨res2, s2, o2, t2⟩
      have h2 : Inv s2 := by
        have hpr := congrArg Step.st hl
        simp only [] at hpr
        rw [← hpr]
        exact inv_release h
      cases res2 with
      | ok u2 => exact h2
      | error e3 => exact h2
  · exact h

theorem inv_runInTransaction {body : Body} {s : PgTransaction} {o : Oracle}
    (h : Inv s) : Inv (runInTransaction body s o).st := by
  unfold runInTransaction
  rcases hb : s.begin o with ⟨res1, s1, o1, t1⟩
  have h1 : Inv s1 := by
    have hpr := congrArg Step.st hb
    simp only [] at hpr
    rw [← hpr]
    exact inv_begin h
  cases res1 with
  | error e => exact inv_runInTxCatch h1
  | ok u =>
    simp only []
    rcases hbd : runBody body s1 o1 with ⟨res2, s2, o2, t2⟩
    have h2 : Inv s2 := by
      have hpr := congrArg Step.st hbd
      simp only [] at hpr
      rw [← hpr]
      exact inv_runBody h1
    cases res2 with
    | error e => exact inv_runInTxCatch h2
    | ok u2 =>
      simp only []
      rcases hcl : commitLoop s.beginCounter s2 o2 with ⟨res3, s3, o3, t3⟩
      have h3 : Inv s3 := by
        have hpr := congrArg Step.st hcl
        simp only [] at hpr
        rw [← hpr]
        exact inv_commitLoopFuel h2
      cases res3 with
      | error e => exact inv_runInTxCatch h3
      | ok u3 => exact h3

/-- Every reachable state satisfies the connection invariant. -/
theorem reachable_inv {s : PgTransaction} (h : Reachable s) : Inv s := by
  induction h with
  | init => intro hx; exact absurd hx (by simp [PgTransaction.init])
  | step op o hr ih => exact inv_runOp ih
  | runInTx body o hr ih => exact inv_runInTransaction ih

/-- Claim C4: in every state reachable from the initial state (depth 0,
no connection) by any sequence of public operations — with any oracle
outcomes for external calls, any hook outcomes, and whole
`runInTransaction` calls with any body — a connection is held whenever
the depth is positive. -/
theorem reachable_depth_implies_client (s : PgTransaction)
    (h : Reachable s) (hp : 0 < s.beginCounter) : s.client = true :=
  reachable_inv h hp

/-- Witness for claim C4 at the state reached by one `begin()` from the
initial state. -/
theorem reachable_depth_implies_client_witness :
    (runOp Op.begin PgTransaction.init []).st.client = true :=
  reachable_depth_implies_client (runOp Op.begin PgTransaction.init []).st
    (Reachable.step Op.begin [] Reachable.init) (by decide)

/-- Iterate one manager operation `n` times, stopping at the first
error, collecting the whole event trace and the counter value observed
after each call. -/
def repeatOp (f : PgTransaction → Oracle → Step) :
    Nat → PgTransaction → Oracle → Step × List Nat
  | 0, s, o => (⟨.ok (), s, o, []⟩, [])
  | n + 1, s, o =>
    match f s o with
    | ⟨.ok _, s1, o1, t1⟩ =>
      let r := repeatOp f n s1 o1
      (⟨r.1.res, r.1.st, r.1.orc, t1 ++ r.1.tr⟩, s1.beginCounter :: r.2)
    | e => (e, [e.st.beginCounter])

/-- An inner `commit` (counter at least 2) just decrements the counter:
no statement, no events, no oracle consumption. -/
theorem commit_inner (s : PgTransaction) (o : Oracle)
    (h2 : 2 ≤ s.beginCounter) (hc : s.client = true) :
    s.commit o = ⟨.ok (), { s with beginCounter := s.beginCounter - 1 }, o, []⟩ := by
  unfold PgTransaction.commit
  rw [if_neg (by omega), if_neg (by simp [hc]), if_neg (by simp; omega)]

/-- The outermost `commit` (counter 1, no after-commit hooks, statement
succeeding) really commits, releases the client and resets the state. -/
theorem commit_outermost (s : PgTransaction) (o : Oracle)
    (h1 : s.beginCounter = 1) (hc : s.client = true) (hq : (o.next).1 = true)
    (hac : s.afterCommitFunctions = []) :
    s.commit o = ⟨.ok (), ⟨false, 0, false, s.afterBeginFunctions, []⟩,
      (o.next).2, [.stmt .commit, .releaseClient]⟩ := by
  unfold PgTransaction.commit
  rw [if_neg (by omega), if_neg (by simp [hc]), if_pos (by simp [h1])]
  simp only []
  rw [if_pos hq]
  simp [hac, PgTransaction.runHooks]

/-- Nested `begin` calls (from a connected state with positive counter)
only ever increment the counter, producing no events. -/
theorem repeat_begin_nested (m : Nat) (s : PgTransaction) (o : Oracle)
    (hc : s.client = true) (h1 : 1 ≤ s.beginCounter) :
    repeatOp PgTransaction.begin m s o =
      (⟨.ok (), { s with beginCounter := s.beginCounter + m }, o, []⟩,
       List.range' (s.beginCounter + 1) m) := by
  induction m generalizing s with
  | zero => simp [repeatOp]
  | succ k ih =>
    have hb := (begin_spec s o).2.2 (by omega) hc
    unfold repeatOp
    rw [hb]
    simp only []
    rw [ih { s with beginCounter := s.beginCounter + 1 } hc (by simp)]
    have ha : s.beginCounter + 1 + k = s.beginCounter + (k + 1) := by omega
    simp [ha, List.range'_succ]

/-- From a connected state at counter `m ≥ 1` with no after-commit
hooks and every statement succeeding, `m` commits count the depth down
`m-1, …, 0`, with the real commit and the client release happening once,
at the last call. -/
theorem repeat_commit_exact (m : Nat) (s : PgTransaction)
    (hc : s.client = true) (hm : s.beginCounter = m) (h1 : 1 ≤ m)
    (hac : s.afterCommitFunctions = []) :
    repeatOp PgTransaction.commit m s [] =
      (⟨.ok (), ⟨false, 0, false, s.afterBeginFunctions, []⟩, [],
        [.stmt .commit, .releaseClient]⟩,
       (List.range m).reverse) := by
  induction m generalizing s with
  | zero => omega
  | succ k ih =>
    cases k with
    | zero =>
      unfold repeatOp
      rw [commit_outermost s [] (by omega) hc rfl hac]
      simp [repeatOp, Oracle.next]
      decide
    | succ j =>
      unfold repeatOp
      rw [commit_inner s [] (by omega) hc]
      simp only []
      rw [ih { s with beginCounter := s.beginCounter - 1 } hc (by simp; omega)
        (by omega) hac]
      have hcnt : s.beginCounter - 1 = j + 1 := by omega
      simp [hcnt, List.range_succ, hm]

/-- The first `begin` on a fresh manager acquires a client, issues the
real `BEGIN` and sets the counter to 1. -/
theorem begin_first :
    PgTransaction.init.begin [] =
      ⟨.ok (), ⟨true, 1, false, [], []⟩, [], [.acquire, .stmt .begin]⟩ := by
  decide

/-- Claim C5: for every `n ≥ 1`, calling `begin()` `n` times and then
`commit()` `n` times on a fresh manager (all statements succeeding)
yields the depth sequence `1, 2, …, n` and then `n-1, …, 0`; over the
whole run the real `BEGIN` and `COMMIT` statements are each issued
exactly once, the connection is acquired from the pool exactly once and
released back exactly once. -/
theorem begin_n_commit_n (n : Nat) (hn : 1 ≤ n) :
    repeatOp PgTransaction.begin n PgTransaction.init [] =
      (⟨.ok (), ⟨true, n, false, [], []⟩, [], [.acquire, .stmt .begin]⟩,
       List.range' 1 n) ∧
    repeatOp PgTransaction.commit n
        (repeatOp PgTransaction.begin n PgTransaction.init []).1.st
        (repeatOp PgTransaction.begin n PgTransaction.init []).1.orc =
      (⟨.ok (), ⟨false, 0, false, [], []⟩, [], [.stmt .commit, .releaseClient]⟩,
       (List.range n).reverse) ∧
    ((repeatOp PgTransaction.begin n PgTransaction.init []).1.tr ++
      (repeatOp PgTransaction.commit n
        (repeatOp PgTransaction.begin n PgTransaction.init []).1.st
        (repeatOp PgTransaction.begin n PgTransaction.init []).1.orc).1.tr).count
        (Event.stmt .begin) = 1 ∧
    ((repeatOp PgTransaction.begin n PgTransaction.init []).1.tr ++
      (repeatOp PgTransaction.commit n
        (repeatOp PgTransaction.begin n PgTransaction.init []).1.st
        (repeatOp PgTransaction.begin n PgTransaction.init []).1.orc).1.tr).count
        (Event.stmt .commit) = 1 ∧
    ((repeatOp PgTransaction.begin n PgTransaction.init []).1.tr ++
      (repeatOp PgTransaction.commit n
        (repeatOp PgTransaction.begin n PgTransaction.init []).1.st
        (repeatOp PgTransaction.begin n PgTransaction.init []).1.orc).1.tr).count
        Event.acquire = 1 ∧
    ((repeatOp PgTransaction.begin n PgTransaction.init []).1.tr ++
      (repeatOp PgTransaction.commit n
        (repeatOp PgTransaction.begin n PgTransaction.init []).1.st
        (repeatOp PgTransaction.begin n PgTransaction.init []).1.orc).1.tr).count
        Event.releaseClient = 1 := by
  obtain ⟨m, rfl⟩ : ∃ m, n = m + 1 := ⟨n - 1, by omega⟩
  have hbeg : repeatOp PgTransaction.begin (m + 1) PgTransaction.init [] =
      (⟨.ok (), ⟨true, m + 1, false, [], []⟩, [], [.acquire, .stmt .begin]⟩,
       List.range' 1 (m + 1)) := by
    unfold repeatOp
    rw [begin_first]
    simp only []
    rw [repeat_begin_nested m ⟨true, 1, false, [], []⟩ [] rfl (by simp)]
    simp [List.range'_succ]
    omega
  have hcom : repeatOp PgTransaction.commit (m + 1)
      (⟨true, m + 1, false, [], []⟩ : PgTransaction) [] =
      (⟨.ok (), ⟨false, 0, false, [], []⟩, [], [.stmt .commit, .releaseClient]⟩,
       (List.range (m + 1)).reverse) :=
    repeat_commit_exact (m + 1) ⟨true, m + 1, false, [], []⟩ rfl rfl (by omega) rfl
  refine ⟨hbeg, by rw [hbeg]; exact hcom, ?_, ?_, ?_, ?_⟩
  all_goals
    rw [hbeg]
    simp only []
    rw [hcom]
    simp only []
    decide

/-- Witness for claim C5 at `n = 3`. -/
theorem begin_n_commit_n_witness :
    repeatOp PgTransaction.begin 3 PgTransaction.init [] =
      (⟨.ok (), ⟨true, 3, false, [], []⟩, [], [.acquire, .stmt .begin]⟩,
       [1, 2, 3]) ∧
    repeatOp PgTransaction.commit 3
        (repeatOp PgTransaction.begin 3 PgTransaction.init []).1.st
        (repeatOp PgTransaction.begin 3 PgTransaction.init []).1.orc =
      (⟨.ok (), ⟨false, 0, false, [], []⟩, [], [.stmt .commit, .releaseClient]⟩,
       [2, 1, 0]) :=
  ⟨(begin_n_commit_n 3 (by decide)).1, (begin_n_commit_n 3 (by decide)).2.1⟩

/-- A successful `rollback` always collapses to depth 0 and releases
the client. -/
theorem rollback_ok_state {s : PgTransaction} {o : Oracle} {u : Unit}
    {s' : PgTransaction} {o' : Oracle} {t' : List Event}
    (h : s.rollback o = ⟨.ok u, s', o', t'⟩) :
    s'.beginCounter = 0 ∧ s'.client = false := by
  unfold PgTransaction.rollback at h
  split at h
  · exact absurd (congrArg Step.res h) (by simp)
  · split at h
    · exact absurd (congrArg Step.res h) (by simp)
    · split at h
      · simp only [] at h
        split at h
        · cases h
          exact ⟨rfl, rfl⟩
        · exact absurd (congrArg Step.res h) (by simp)
      · omega

/-- A failed `rollback` from a positive counter leaves the state
untouched. -/
theorem rollback_error_state {s : PgTransaction} {o : Oracle} {e : Err}
    {s' : PgTransaction} {o' : Oracle} {t' : List Event}
    (hpos : 0 < s.beginCounter)
    (h : s.rollback o = ⟨.error e, s', o', t'⟩) : s' = s := by
  unfold PgTransaction.rollback at h
  split at h
  · omega
  · split at h
    · cases h
      rfl
    · simp only [] at h
      split at h
      · exact absurd (congrArg Step.res h) (by simp)
      · cases h
        rfl

/-- `release` at depth 0 always succeeds and stays at depth 0. -/
theorem release_of_zero {s : PgTransaction} {o : Oracle}
    (h0 : s.beginCounter = 0) :
    (s.release o).res = .ok () ∧ (s.release o).st.beginCounter = 0 := by
  unfold PgTransaction.release
  rw [if_neg (by omega)]
  split
  · exact ⟨rfl, rfl⟩
  · exact ⟨rfl, h0⟩

/-- A successful `commit` from a positive counter either really commits
(counter 1 down to 0) or merely decrements a nested counter. -/
theorem commit_ok_cases {s : PgTransaction} {o : Oracle} {u : Unit}
    {s' : PgTransaction} {o' : Oracle} {t' : List Event}
    (hpos : 0 < s.beginCounter)
    (h : s.commit o = ⟨.ok u, s', o', t'⟩) :
    (s.beginCounter = 1 ∧ s'.beginCounter = 0) ∨
      (2 ≤ s.beginCounter ∧ s'.beginCounter = s.beginCounter - 1) := by
  unfold PgTransaction.commit at h
  split at h
  · omega
  · split at h
    · exact absurd (congrArg Step.res h) (by simp)
    · rename_i hb1
      split at h
      · rename_i hb2
        simp only [] at h
        split at h
        · split at h
          · cases h
            exact Or.inl ⟨by simpa using hb2, rfl⟩
          · exact absurd (congrArg Step.res h) (by simp)
        · exact absurd (congrArg Step.res h) (by simp)
      · rename_i hb2
        cases h
        exact Or.inr ⟨by simp at hb2; omega, rfl⟩

/-- With enough fuel, a normal exit of the balancing loop always lands
at or below the recorded counter. -/
theorem commitLoopFuel_ok_le {fuel before : Nat} {s : PgTransaction}
    {o : Oracle} {u : Unit} (hf : s.beginCounter ≤ fuel)
    (hok : (commitLoopFuel fuel before s o).res = .ok u) :
    (commitLoopFuel fuel before s o).st.beginCounter ≤ before := by
  induction fuel generalizing s o with
  | zero =>
    show s.beginCounter ≤ before
    omega
  | succ f ih =>
    unfold commitLoopFuel at hok ⊢
    split at hok
    · rename_i hgt
      rw [if_pos hgt]
      rcases hc : s.commit o with ⟨res, s1, o1, t1⟩
      rw [hc] at hok
      cases res with
      | ok u1 =>
        simp only [] at hok ⊢
        have hlt : s1.beginCounter < s.beginCounter :=
          commit_ok_lt (by omega) hc
        exact ih (by omega) hok
      | error e => exact absurd hok (by simp)
    · rename_i hngt
      rw [if_neg hngt]
      show s.beginCounter ≤ before
      omega

/-- With enough fuel, if the loop is entered at or above the recorded
counter and exits normally, it lands exactly on the recorded counter. -/
theorem commitLoopFuel_ok_ge {fuel before : Nat} {s : PgTransaction}
    {o : Oracle} {u : Unit} (hf : s.beginCounter ≤ fuel)
    (hge : before ≤ s.beginCounter)
    (hok : (commitLoopFuel fuel before s o).res = .ok u) :
    (commitLoopFuel fuel before s o).st.beginCounter = before := by
  induction fuel generalizing s o with
  | zero =>
    show s.beginCounter = before
    omega
  | succ f ih =>
    unfold commitLoopFuel at hok ⊢
    split at hok
    · rename_i hgt
      rw [if_pos hgt]
      rcases hc : s.commit o with ⟨res, s1, o1, t1⟩
      rw [hc] at hok
      cases res with
      | ok u1 =>
        simp only [] at hok ⊢
        have hlt : s1.beginCounter < s.beginCounter :=
          commit_ok_lt (by omega) hc
        have hcase := commit_ok_cases (by omega) hc
        have hge1 : before ≤ s1.beginCounter := by omega
        exact ih (by omega) hge1 hok
      | error e => exact absurd hok (by simp)
    · rename_i hngt
      rw [if_neg hngt]
      show s.beginCounter = before
      omega

/-- The catch block of `runInTransaction` always rethrows an error, and
either it has fully collapsed the depth to 0, or the forced `release()`
threw the TransactionActive error (because the cleanup rollback failed,
or the misuse flag was set while the depth was positive) and the
surfaced error is that TransactionActive error. -/
theorem runInTxCatch_cases (e : Err) (s : PgTransaction) (o : Oracle)
    (t : List Event) :
    ∃ e2, (runInTxCatch e s o t).res = .error e2 ∧
      ((runInTxCatch e s o t).st.beginCounter = 0 ∨ e2 = .transactionActive) := by
  unfold runInTxCatch
  split
  · rename_i hpos
    split
    · rcases hr : s.rollback o with ⟨res, s1, o1, t1⟩
      cases res with
      | ok u =>
        simp only []
        obtain ⟨h0, hcl⟩ := rollback_ok_state hr
        obtain ⟨hres, hcnt⟩ := release_of_zero (s := s1) (o := o1) h0
        rcases hl : s1.release o1 with ⟨res2, s2, o2, t2⟩
        rw [hl] at hres hcnt
        cases res2 with
        | ok u2 => exact ⟨e, rfl, Or.inl hcnt⟩
        | error e3 => exact absurd hres (by simp)
      | error e2 =>
        simp only []
        have hs1 : s1 = s := rollback_error_state (by omega) hr
        have hrel : s1.release o1 = ⟨.error .transactionActive, s1, o1, []⟩ :=
          (release_spec s1 o1).1 (by rw [hs1]; omega)
        rw [hrel]
        exact ⟨.transactionActive, rfl, Or.inr rfl⟩
    · have hrel : s.release o = ⟨.error .transactionActive, s, o, []⟩ :=
        (release_spec s o).1 (by omega)
      rw [hrel]
      exact ⟨.transactionActive, rfl, Or.inr rfl⟩
  · rename_i hnpos
    exact ⟨e, rfl, Or.inl (by show s.beginCounter = 0; omega)⟩

/-- Claim C1 counterexample: starting from the reachable state after one
`begin()` (depth 1, the recorded `baseDepth`), a body that merely calls
`rollback()` — which the project README explicitly allows inside
`runInTransaction` — and then returns normally makes `runInTransaction`
return success with depth 0, not the recorded depth 1. -/
theorem runInTransaction_success_below_base :
    (PgTransaction.init.begin []).st.beginCounter = 1 ∧
    (runInTransaction ⟨[⟨.rollback, false⟩], false⟩
       (PgTransaction.init.begin []).st []).res = .ok () ∧
    (runInTransaction ⟨[⟨.rollback, false⟩], false⟩
       (PgTransaction.init.begin []).st []).st.beginCounter = 0 := by
  decide

/-- Claim C1 (amended): `runInTransaction` on success returns with depth
at most `baseDepth`, and with depth exactly `baseDepth` whenever the body
phase ends at depth at least `baseDepth` (the depth can end lower only
when the body itself collapsed the transaction below the entry depth);
on failure it returns with depth 0 except when the cleanup itself failed
(the rollback threw, or the misuse flag was set with depth still
positive), in which case the forced `release()` throws and the surfaced
error is the TransactionActive error. -/
theorem runInTransaction_depth_spec (body : Body) (s : PgTransaction)
    (o : Oracle) :
    ((runInTransaction body s o).res = .ok () →
       (runInTransaction body s o).st.beginCounter ≤ s.beginCounter) ∧
    (∀ sb sc, s.begin o = sb → sb.res = .ok () →
       runBody body sb.st sb.orc = sc → sc.res = .ok () →
       s.beginCounter ≤ sc.st.beginCounter →
       (runInTransaction body s o).res = .ok () →
       (runInTransaction body s o).st.beginCounter = s.beginCounter) ∧
    (∀ e2, (runInTransaction body s o).res = .error e2 →
       (runInTransaction body s o).st.beginCounter = 0 ∨
         e2 = .transactionActive) := by
  rcases hb : s.begin o with ⟨res1, s1, o1, t1⟩
  cases res1 with
  | error e =>
    have hrun : runInTransaction body s o = runInTxCatch e s1 o1 t1 := by
      unfold runInTransaction
      simp only []
      rw [hb]
    obtain ⟨e3, hres, hdisj⟩ := runInTxCatch_cases e s1 o1 t1
    refine ⟨fun hok => ?_, fun sb sc hsb hsbok => ?_, fun e2 h => ?_⟩
    · rw [hrun, hres] at hok
      exact absurd hok (by simp)
    · subst hsb
      exact absurd hsbok (by simp)
    · rw [hrun] at h ⊢
      rw [hres] at h
      injection h with hh
      subst hh
      exact hdisj
  | ok u =>
    cases u
    rcases hbd : runBody body s1 o1 with ⟨res2, s2, o2, t2⟩
    cases res2 with
    | error e =>
      have hrun : runInTransaction body s o = runInTxCatch e s2 o2 (t1 ++ t2) := by
        unfold runInTransaction
        simp only []
        rw [hb]
        simp only []
        rw [hbd]
      obtain ⟨e3, hres, hdisj⟩ := runInTxCatch_cases e s2 o2 (t1 ++ t2)
      refine ⟨fun hok => ?_, fun sb sc hsb hsbok hsc hscok => ?_, fun e2 h => ?_⟩
      · rw [hrun, hres] at hok
        exact absurd hok (by simp)
      · subst hsb
        simp only [] at hsc
        rw [hbd] at hsc
        subst hsc
        exact absurd hscok (by simp)
      · rw [hrun] at h ⊢
        rw [hres] at h
        injection h with hh
        subst hh
        exact hdisj
    | ok u2 =>
      cases u2
      rcases hcl2 : commitLoop s.beginCounter s2 o2 with ⟨res3, s3, o3, t3⟩
      cases res3 with
      | error e =>
        have hrun : runInTransaction body s o =
            runInTxCatch e s3 o3 (t1 ++ t2 ++ t3) := by
          unfold runInTransaction
          simp only []
          rw [hb]
          simp only []
          rw [hbd]
          simp only []
          rw [hcl2]
        obtain ⟨e3, hres, hdisj⟩ := runInTxCatch_cases e s3 o3 (t1 ++ t2 ++ t3)
        refine ⟨fun hok => ?_, fun sb sc hsb hsbok hsc hscok hge hrok => ?_,
          fun e2 h => ?_⟩
        · rw [hrun, hres] at hok
          exact absurd hok (by simp)
        · rw [hrun, hres] at hrok
          exact absurd hrok (by simp)
        · rw [hrun] at h ⊢
          rw [hres] at h
          injection h with hh
          subst hh
          exact hdisj
      | ok u3 =>
        cases u3
        have hrun : runInTransaction body s o =
            ⟨.ok (), s3, o3, t1 ++ t2 ++ t3⟩ := by
          unfold runInTransaction
          simp only []
          rw [hb]
          simp only []
          rw [hbd]
          simp only []
          rw [hcl2]
        have hle : s3.beginCounter ≤ s.beginCounter := by
          have hok3 : (commitLoopFuel s2.beginCounter s.beginCounter s2
              o2).res = .ok () := by
            have hcl3 : commitLoopFuel s2.beginCounter s.beginCounter s2 o2 =
                ⟨.ok (), s3, o3, t3⟩ := hcl2
            rw [hcl3]
          have := commitLoopFuel_ok_le (Nat.le_refl s2.beginCounter) hok3
          rwa [show commitLoopFuel s2.beginCounter s.beginCounter s2 o2 =
            ⟨.ok (), s3, o3, t3⟩ from hcl2] at this
        refine ⟨fun hok => ?_, fun sb sc hsb hsbok hsc hscok hge hrok => ?_,
          fun e2 h => ?_⟩
        · rw [hrun]
          exact hle
        · subst hsb
          simp only [] at hsc
          rw [hbd] at hsc
          subst hsc
          simp only [] at hge
          rw [hrun]
          have hok3 : (commitLoopFuel s2.beginCounter s.beginCounter s2
              o2).res = .ok () := by
            have hcl3 : commitLoopFuel s2.beginCounter s.beginCounter s2 o2 =
                ⟨.ok (), s3, o3, t3⟩ := hcl2
            rw [hcl3]
          have heq := commitLoopFuel_ok_ge (Nat.le_refl s2.beginCounter) hge hok3
          rwa [show commitLoopFuel s2.beginCounter s.beginCounter s2 o2 =
            ⟨.ok (), s3, o3, t3⟩ from hcl2] at heq
        · rw [hrun] at h
          exact absurd h (by simp)

/-- Witness for amended claim C1: the trivial body on a fresh manager,
where `runInTransaction` succeeds at exactly the recorded depth 0. -/
theorem runInTransaction_depth_spec_witness :
    (runInTransaction ⟨[], false⟩ PgTransaction.init
       []).st.beginCounter ≤ PgTransaction.init.beginCounter ∧
    (runInTransaction ⟨[], false⟩ PgTransaction.init
       []).st.beginCounter = PgTransaction.init.beginCounter :=
  ⟨(runInTransaction_depth_spec ⟨[], false⟩ PgTransaction.init []).1 (by decide),
   (runInTransaction_depth_spec ⟨[], false⟩ PgTransaction.init []).2.1
     (PgTransaction.init.begin []) (runBody ⟨[], false⟩
       (PgTransaction.init.begin []).st (PgTransaction.init.begin []).orc)
     rfl (by decide) rfl (by decide) (by decide) (by decide)⟩

/-- Claim C3 evaluated at the failing input: fresh manager, a body that
throws, the cleanup `ROLLBACK` statement failing (oracle: connect
succeeds, `BEGIN` succeeds, `ROLLBACK` fails).  The catch block then
calls `release()` while `beginCounter` is still 1, so `release()` itself
throws the TransactionActive error: the wrapping error around the
rollback failure is never raised, the original error is not rethrown,
and the client is never released — the trace contains no client release,
the state still holds the client at depth 1.  The same `release()` guard
fires in the misuse-flag branch, so no path of the catch block with
depth above 0 and a failing rollback can release the connection. -/
theorem runInTransaction_rollback_failure_leaks :
    (runInTransaction ⟨[], true⟩ PgTransaction.init [true, true, false]).res
        = .error .transactionActive ∧
    (runInTransaction ⟨[], true⟩ PgTransaction.init
        [true, true, false]).st.client = true ∧
    (runInTransaction ⟨[], true⟩ PgTransaction.init
        [true, true, false]).st.beginCounter = 1 ∧
    (runInTransaction ⟨[], true⟩ PgTransaction.init
        [true, true, false]).tr.count Event.releaseClient = 0 := by
  decide

end KnightPg
